import Mathlib

/-!
# Shallow embedding of the harmonic load-balancing core

This file embeds the selection core of the `harmonic` package
(`harmonic.go`) into Lean 4 and proves the specification claims about it.

The embedding is word-for-word where the Go source is available:
`SelectService`, `findCeilIn` and `getIndexedService` are translated from
`harmonic.go`.  The `ClusterState` struct, the `roundrobin` helper and the
`randomize`/`randomize64` draws are declared in files of the repository
that are not part of the provided source; they are modelled from the
specification text (each such definition carries a doc comment saying so).
Go's `uint64`/`int` counters and indices are modelled with `Nat`/`Int`;
the float64 weight arithmetic of the source only ever holds non-negative
integer values (results of `math.Ceil` and their running sums), so it is
modelled with exact `Nat` arithmetic.
-/

/-- Modelled from the spec: the `ClusterState` struct (its Go file is not in
the provided source).  Per the spec it holds the immutable endpoint list and
the error ledger, a mapping from endpoint identifier to a non-negative
counter (a Go map, reading 0 for absent keys, hence a total function).
The mutex is irrelevant to the sequential claims and is omitted. -/
structure ClusterState where
  servicelist : List String
  errormap : String → Nat

/-- Modelled from the spec: the `numservices` field, whose construction
invariant is `count == length(endpoints)`. -/
def numservices (cs : ClusterState) : Nat := cs.servicelist.length

/-- Largest `k ≤ bound` with `k * k ≤ n`, by downward scan; `floorSqrt` below
instantiates `bound := n`, which makes it the integer square root (proved
equal to `Nat.sqrt`, whose Newton iteration does not reduce in the kernel). -/
def floorSqrtAux (n : Nat) : Nat → Nat
  | 0 => 0
  | k + 1 => if (k + 1) * (k + 1) ≤ n then k + 1 else floorSqrtAux n k

/-- Kernel-computable integer square root. -/
def floorSqrt (n : Nat) : Nat := floorSqrtAux n n

/-- `effectiveerr := uint64(math.Floor(math.Pow(float64(1+errcnt), 1.5)))`
(harmonic.go line 34).  For a natural `x`, `floor(x^1.5) = floor(sqrt(x^3))`,
the integer square root of `x^3`. -/
def effectiveErr (errcnt : Nat) : Nat := floorSqrt ((1 + errcnt) ^ 3)

/-- The `maxerr` accumulation loop of harmonic.go lines 30-38:
start from 0 and replace the accumulator whenever `effectiveerr >= maxerr`. -/
def maxEffErr (cs : ClusterState) : Nat :=
  cs.servicelist.foldl
    (fun maxerr svc =>
      if maxerr ≤ effectiveErr (cs.errormap svc) then effectiveErr (cs.errormap svc)
      else maxerr)
    0

/-- `weights[i] = math.Ceil(float64(maxerr) / float64(errcnt+1))`
(harmonic.go line 48), as exact natural ceiling division. -/
def weightFor (maxerr errcnt : Nat) : Nat := (maxerr + errcnt) / (errcnt + 1)

/-- The weights array of harmonic.go lines 43-49, in endpoint order. -/
def weightsCS (cs : ClusterState) : List Nat :=
  cs.servicelist.map (fun svc => weightFor (maxEffErr cs) (cs.errormap svc))

/-- The running-sum loop of harmonic.go lines 51-57:
`prefixes[0] = weights[0]`, `prefixes[i] = weights[i] + prefixes[i-1]`. -/
def prefixSums (acc : Nat) : List Nat → List Nat
  | [] => []
  | w :: ws => (acc + w) :: prefixSums (acc + w) ws

/-- The prefixes array built by SelectService (harmonic.go lines 44, 51-57). -/
def prefixesCS (cs : ClusterState) : List Nat := prefixSums 0 (weightsCS cs)

/-- The `for` loop inside `findCeilIn` (harmonic.go lines 86-96), returning the
final value of `start`.  The loop narrows `[start, end]` and each iteration
shrinks `end - start` by at least one, so running it with fuel `end - start`
is exact; `findCeilIn` below supplies exactly that fuel. -/
def findCeilLoop (randx : Nat) (prefixes : List Nat) : Nat → Nat → Nat → Nat
  | 0, start, _ => start
  | fuel + 1, start, e =>
    if start < e then
      if prefixes.getD (start + (e - start) / 2) 0 < randx then
        findCeilLoop randx prefixes fuel (start + (e - start) / 2 + 1) e
      else
        findCeilLoop randx prefixes fuel start (start + (e - start) / 2)
    else start

/-- `findCeilIn` (harmonic.go lines 83-102): binary search for the position of
the drawn number; after the loop, return the final `start` if
`randx <= prefixes[start]`, else -1. -/
def findCeilIn (randx : Nat) (prefixes : List Nat) (start e : Nat) : Int :=
  if randx ≤ prefixes.getD (findCeilLoop randx prefixes (e - start) start e) 0 then
    ((findCeilLoop randx prefixes (e - start) start e : Nat) : Int)
  else -1

/-- `getIndexedService` (harmonic.go lines 106-113). -/
def getIndexedService (cs : ClusterState) (index : Int) : Except String String :=
  if index < 0 ∨ (numservices cs : Int) ≤ index then
    Except.error "harmonic: service index out of bounds"
  else Except.ok (cs.servicelist.getD index.toNat "")

/-- Modelled from the spec: the `roundrobin` helper (its Go file is not in the
provided source).  Per the spec, retry selects the endpoint at
`(previousPosition + 1) mod count`, with a not-found previous endpoint
contributing position -1. -/
def roundrobin (n : Nat) (prevIdx : Int) : Int := (prevIdx + 1) % (n : Int)

/-- The previous-endpoint scan of harmonic.go lines 70-75: a linear pass that
records the index of every match (so it ends holding the last match), starting
from -1. -/
def prevIndexAux (prevservice : String) : Nat → Int → List String → Int
  | _, acc, [] => acc
  | psi, acc, svc :: rest =>
      prevIndexAux prevservice (psi + 1) (if svc = prevservice then (psi : Int) else acc) rest

/-- `prevserviceindex` as computed by harmonic.go lines 70-75. -/
def prevIndex (l : List String) (prevservice : String) : Int :=
  prevIndexAux prevservice 0 (-1) l

/-- The uniform branch `getIndexedService(cs, randomize(0, cs.numservices))`
(harmonic.go lines 41 and 68).  `randomize` is not in the provided source; it
is modelled from the spec as a uniform draw in `[0, count)`, passed in as the
parameter `rUniform`. -/
def uniformSelect (cs : ClusterState) (rUniform : Nat) : Except String String :=
  getIndexedService cs (rUniform : Int)

/-- The weighted branch of harmonic.go lines 43-65 and its defensive fallback
on line 68.  `randomize64(1, total+1)` is not in the provided source; it is
modelled from the spec as a uniform draw in the closed range
`[1, totalWeight]`, passed in as the parameter `rDraw`. -/
def weightedSelect (cs : ClusterState) (rUniform rDraw : Nat) : Except String String :=
  if 0 ≤ findCeilIn rDraw (prefixesCS cs) 0 (numservices cs - 1) then
    getIndexedService cs (findCeilIn rDraw (prefixesCS cs) 0 (numservices cs - 1))
  else getIndexedService cs (rUniform : Int)

/-- `SelectService` (harmonic.go lines 14-79), in state-passing form: the
second component is the cluster state as left by the call (the source performs
no writes, and the embedding threads the state to make that checkable).  The
two random draws enter as the parameters `rUniform` (either `randomize` call)
and `rDraw` (the `randomize64` call); they sit on disjoint paths in the
source, so one parameter per generator call site is faithful. -/
def SelectService (cs : ClusterState) (retryindex : Int) (prevservice : String)
    (rUniform rDraw : Nat) : Except String String × ClusterState :=
  if numservices cs = 0 then
    (Except.error "harmonic: servicelist is empty", cs)
  else if numservices cs = 1 then
    (getIndexedService cs 0, cs)
  else if retryindex = 0 then
    (if maxEffErr cs = 1 then uniformSelect cs rUniform
     else weightedSelect cs rUniform rDraw, cs)
  else
    (getIndexedService cs (roundrobin (numservices cs) (prevIndex cs.servicelist prevservice)),
     cs)

/-- Concrete state for witnesses: two endpoints, one recorded failure. -/
def csW : ClusterState := ⟨["a", "b"], fun s => if s = "a" then 1 else 0⟩

/-- Concrete state for witnesses: two distinct endpoints, no failures. -/
def csEx : ClusterState := ⟨["s0", "s1"], fun _ => 0⟩

/-- Concrete state for witnesses: empty endpoint list. -/
def csEmpty : ClusterState := ⟨[], fun _ => 0⟩

/-- Concrete state for witnesses: a single endpoint. -/
def csOne : ClusterState := ⟨["only"], fun _ => 0⟩

/-- Concrete state exercising duplicate identifiers. -/
def csDup : ClusterState := ⟨["a", "b", "a"], fun _ => 0⟩

/-! ## Helper lemmas -/

lemma floorSqrtAux_eq_sqrt (n : Nat) : ∀ k, Nat.sqrt n ≤ k → floorSqrtAux n k = Nat.sqrt n := by
  intro k
  induction k with
  | zero =>
    intro h
    simp only [floorSqrtAux]
    omega
  | succ k ih =>
    intro h
    rw [floorSqrtAux]
    by_cases hk : (k + 1) * (k + 1) ≤ n
    · rw [if_pos hk]
      have h2 : k + 1 ≤ Nat.sqrt n := Nat.le_sqrt.mpr hk
      omega
    · rw [if_neg hk]
      apply ih
      have h2 : Nat.sqrt n < k + 1 := Nat.sqrt_lt.mpr (by omega)
      omega

lemma floorSqrt_eq_sqrt (n : Nat) : floorSqrt n = Nat.sqrt n :=
  floorSqrtAux_eq_sqrt n n (Nat.sqrt_le_self n)

lemma effectiveErr_eq_sqrt (e : Nat) : effectiveErr e = Nat.sqrt ((1 + e) ^ 3) := by
  rw [effectiveErr, floorSqrt_eq_sqrt]

lemma effectiveErr_zero : effectiveErr 0 = 1 := by decide

lemma one_le_effectiveErr (e : Nat) : 1 ≤ effectiveErr e := by
  rw [effectiveErr_eq_sqrt]
  refine Nat.le_sqrt.mpr ?_
  have h1 : 1 ≤ 1 + e := by omega
  calc 1 * 1 = 1 ^ 3 := by norm_num
    _ ≤ (1 + e) ^ 3 := Nat.pow_le_pow_left h1 3

lemma two_le_effectiveErr (e : Nat) (he : e ≠ 0) : 2 ≤ effectiveErr e := by
  rw [effectiveErr_eq_sqrt]
  refine Nat.le_sqrt.mpr ?_
  have h1 : 2 ≤ 1 + e := by omega
  calc 2 * 2 ≤ 2 ^ 3 := by norm_num
    _ ≤ (1 + e) ^ 3 := Nat.pow_le_pow_left h1 3

lemma foldl_eff_acc_le (cs : ClusterState) : ∀ (l : List String) (a : Nat),
    a ≤ l.foldl
      (fun maxerr svc =>
        if maxerr ≤ effectiveErr (cs.errormap svc) then effectiveErr (cs.errormap svc)
        else maxerr) a := by
  intro l
  induction l with
  | nil => intro a; simp
  | cons t l ih =>
    intro a
    rw [List.foldl_cons]
    refine le_trans ?_ (ih _)
    split <;> omega

lemma foldl_eff_mem_le (cs : ClusterState) : ∀ (l : List String) (a : Nat) (svc : String),
    svc ∈ l →
    effectiveErr (cs.errormap svc) ≤ l.foldl
      (fun maxerr svc =>
        if maxerr ≤ effectiveErr (cs.errormap svc) then effectiveErr (cs.errormap svc)
        else maxerr) a := by
  intro l
  induction l with
  | nil => intro a s h; simp at h
  | cons t l ih =>
    intro a s h
    rw [List.foldl_cons]
    rcases List.mem_cons.mp h with h | h
    · subst h
      refine le_trans ?_ (foldl_eff_acc_le cs l _)
      split <;> omega
    · exact ih _ s h

lemma foldl_eff_cases (cs : ClusterState) : ∀ (l : List String) (a : Nat),
    (l.foldl
      (fun maxerr svc =>
        if maxerr ≤ effectiveErr (cs.errormap svc) then effectiveErr (cs.errormap svc)
        else maxerr) a = a) ∨
    ∃ svc ∈ l, l.foldl
      (fun maxerr svc =>
        if maxerr ≤ effectiveErr (cs.errormap svc) then effectiveErr (cs.errormap svc)
        else maxerr) a = effectiveErr (cs.errormap svc) := by
  intro l
  induction l with
  | nil => intro a; left; rfl
  | cons t l ih =>
    intro a
    rw [List.foldl_cons]
    rcases ih (if a ≤ effectiveErr (cs.errormap t) then effectiveErr (cs.errormap t) else a) with
      h | ⟨s, hs, h⟩
    · by_cases ha : a ≤ effectiveErr (cs.errormap t)
      · right
        exact ⟨t, List.mem_cons_self t l, by rw [h, if_pos ha]⟩
      · left
        rw [h, if_neg ha]
    · right
      exact ⟨s, List.mem_cons_of_mem _ hs, h⟩

lemma eff_le_maxEffErr (cs : ClusterState) (svc : String) (h : svc ∈ cs.servicelist) :
    effectiveErr (cs.errormap svc) ≤ maxEffErr cs :=
  foldl_eff_mem_le cs cs.servicelist 0 svc h

lemma two_le_maxEffErr (cs : ClusterState)
    (h : ∃ svc ∈ cs.servicelist, cs.errormap svc ≠ 0) : 2 ≤ maxEffErr cs := by
  obtain ⟨svc, hm, hnz⟩ := h
  exact le_trans (two_le_effectiveErr _ hnz) (eff_le_maxEffErr cs svc hm)

lemma maxEffErr_eq_one_iff (cs : ClusterState) (hne : cs.servicelist ≠ []) :
    maxEffErr cs = 1 ↔ ∀ svc ∈ cs.servicelist, cs.errormap svc = 0 := by
  constructor
  · intro h1 svc hm
    by_contra hnz
    have h2 := two_le_maxEffErr cs ⟨svc, hm, hnz⟩
    omega
  · intro hall
    obtain ⟨s, hs⟩ := List.exists_mem_of_ne_nil cs.servicelist hne
    have hle : effectiveErr (cs.errormap s) ≤ maxEffErr cs := eff_le_maxEffErr cs s hs
    have h1 : effectiveErr (cs.errormap s) = 1 := by rw [hall s hs]; exact effectiveErr_zero
    rcases foldl_eff_cases cs cs.servicelist 0 with h | ⟨t, ht, h⟩
    · have : maxEffErr cs = 0 := h
      omega
    · have h2 : maxEffErr cs = effectiveErr (cs.errormap t) := h
      rw [h2, hall t ht]
      exact effectiveErr_zero

lemma findCeilLoop_spec (ps : List Nat) (r : Nat)
    (mono : ∀ i j, i ≤ j → j < ps.length → ps.getD i 0 ≤ ps.getD j 0) :
    ∀ fuel start e, e - start ≤ fuel → start ≤ e → e < ps.length →
      (∀ j, j < start → ps.getD j 0 < r) →
      start ≤ findCeilLoop r ps fuel start e ∧
      findCeilLoop r ps fuel start e ≤ e ∧
      (∀ j, j < findCeilLoop r ps fuel start e → ps.getD j 0 < r) ∧
      (r ≤ ps.getD e 0 → r ≤ ps.getD (findCeilLoop r ps fuel start e) 0) := by
  intro fuel
  induction fuel with
  | zero =>
    intro start e hfe hse hlen hleft
    have hEq : start = e := by omega
    subst hEq
    simp only [findCeilLoop]
    exact ⟨le_refl _, le_refl _, hleft, fun h => h⟩
  | succ fuel ih =>
    intro start e hfe hse hlen hleft
    rw [findCeilLoop]
    by_cases hlt : start < e
    · rw [if_pos hlt]
      have hhalf : (e - start) / 2 < e - start := Nat.div_lt_self (by omega) (by omega)
      have hm1 : start ≤ start + (e - start) / 2 := by omega
      have hm2 : start + (e - start) / 2 < e := by omega
      by_cases hcmp : ps.getD (start + (e - start) / 2) 0 < r
      · rw [if_pos hcmp]
        have hleft2 : ∀ j, j < start + (e - start) / 2 + 1 → ps.getD j 0 < r := by
          intro j hj
          exact lt_of_le_of_lt (mono j (start + (e - start) / 2) (by omega) (by omega)) hcmp
        obtain ⟨a1, a2, a3, a4⟩ :=
          ih (start + (e - start) / 2 + 1) e (by omega) (by omega) hlen hleft2
        exact ⟨by omega, a2, a3, a4⟩
      · rw [if_neg hcmp]
        have hcmp2 : r ≤ ps.getD (start + (e - start) / 2) 0 := by omega
        obtain ⟨a1, a2, a3, a4⟩ :=
          ih start (start + (e - start) / 2) (by omega) (by omega) (by omega) hleft
        exact ⟨a1, by omega, a3, fun _ => a4 hcmp2⟩
    · rw [if_neg hlt]
      have hEq : start = e := by omega
      subst hEq
      exact ⟨le_refl _, le_refl _, hleft, fun h => h⟩

lemma findCeilIn_found (ps : List Nat) (r : Nat)
    (mono : ∀ i j, i ≤ j → j < ps.length → ps.getD i 0 ≤ ps.getD j 0)
    (hlen : 0 < ps.length) (hr : r ≤ ps.getD (ps.length - 1) 0) :
    ∃ i : Nat, findCeilIn r ps 0 (ps.length - 1) = (i : Int) ∧ i < ps.length ∧
      r ≤ ps.getD i 0 ∧ ∀ j, j < i → ps.getD j 0 < r := by
  obtain ⟨a1, a2, a3, a4⟩ :=
    findCeilLoop_spec ps r mono (ps.length - 1) 0 (ps.length - 1) (by omega) (by omega)
      (by omega) (fun j hj => absurd hj (Nat.not_lt_zero j))
  refine ⟨findCeilLoop r ps (ps.length - 1) 0 (ps.length - 1), ?_, by omega, a4 hr, a3⟩
  rw [findCeilIn]
  simp only [Nat.sub_zero]
  rw [if_pos (a4 hr)]

lemma findCeilIn_none (ps : List Nat) (r : Nat)
    (mono : ∀ i j, i ≤ j → j < ps.length → ps.getD i 0 ≤ ps.getD j 0)
    (hlen : 0 < ps.length) (hr : ps.getD (ps.length - 1) 0 < r) :
    findCeilIn r ps 0 (ps.length - 1) = -1 := by
  obtain ⟨a1, a2, a3, a4⟩ :=
    findCeilLoop_spec ps r mono (ps.length - 1) 0 (ps.length - 1) (by omega) (by omega)
      (by omega) (fun j hj => absurd hj (Nat.not_lt_zero j))
  have hfin : ps.getD (findCeilLoop r ps (ps.length - 1) 0 (ps.length - 1)) 0 < r :=
    lt_of_le_of_lt (mono _ (ps.length - 1) a2 (by omega)) hr
  rw [findCeilIn]
  simp only [Nat.sub_zero]
  rw [if_neg (by omega)]

lemma prefixSums_length (ws : List Nat) : ∀ acc, (prefixSums acc ws).length = ws.length := by
  induction ws with
  | nil => intro acc; rfl
  | cons w ws ih => intro acc; simp [prefixSums, ih]

lemma prefixSums_getD (ws : List Nat) : ∀ acc i, i < ws.length →
    (prefixSums acc ws).getD i 0 = acc + (ws.take (i + 1)).sum := by
  induction ws with
  | nil => intro acc i h; simp at h
  | cons w ws ih =>
    intro acc i h
    cases i with
    | zero => simp [prefixSums]
    | succ i =>
      have hi : i < ws.length := by simpa using h
      simp only [prefixSums, List.getD_cons_succ]
      rw [ih (acc + w) i hi]
      simp [List.sum_cons]
      omega

lemma sum_take_le_sum_take (ws : List Nat) : ∀ m k, m ≤ k →
    (ws.take m).sum ≤ (ws.take k).sum := by
  induction ws with
  | nil => intro m k _; simp
  | cons w ws ih =>
    intro m k hmk
    cases m with
    | zero => simp
    | succ m =>
      cases k with
      | zero => omega
      | succ k =>
        simp only [List.take, List.sum_cons]
        exact Nat.add_le_add_left (ih m k (by omega)) w

lemma sum_take_succ_eq (ws : List Nat) : ∀ i, i < ws.length →
    (ws.take (i + 1)).sum = (ws.take i).sum + ws.getD i 0 := by
  induction ws with
  | nil => intro i h; simp at h
  | cons w ws ih =>
    intro i h
    cases i with
    | zero => simp
    | succ i =>
      have hi : i < ws.length := by simpa using h
      simp only [List.take, List.sum_cons, List.getD_cons_succ]
      rw [ih i hi]
      omega

lemma prefixSums_getD_mono (ws : List Nat) (acc i j : Nat) (hij : i ≤ j) (hj : j < ws.length) :
    (prefixSums acc ws).getD i 0 ≤ (prefixSums acc ws).getD j 0 := by
  rw [prefixSums_getD ws acc i (lt_of_le_of_lt hij hj), prefixSums_getD ws acc j hj]
  exact Nat.add_le_add_left (sum_take_le_sum_take ws (i + 1) (j + 1) (by omega)) acc

lemma getD_eq_getElem_of_lt {α : Type _} (l : List α) (d : α) (i : Nat) (h : i < l.length) :
    l.getD i d = l[i] := by
  simp [List.getD_eq_getElem?_getD, List.getElem?_eq_getElem h]

lemma getD_map_nat (f : String → Nat) : ∀ (l : List String) (i : Nat), i < l.length →
    (l.map f).getD i 0 = f (l.getD i "") := by
  intro l
  induction l with
  | nil => intro i h; simp at h
  | cons a l ih =>
    intro i h
    cases i with
    | zero => simp
    | succ i =>
      simp only [List.map, List.getD_cons_succ]
      exact ih i (by simpa using h)

lemma pairwise_le_getD (ps : List Nat) (h : ps.Pairwise (· ≤ ·)) :
    ∀ i j, i ≤ j → j < ps.length → ps.getD i 0 ≤ ps.getD j 0 := by
  intro i j hij hj
  rcases Nat.eq_or_lt_of_le hij with hEq | hlt
  · subst hEq; exact le_refl _
  · rw [getD_eq_getElem_of_lt ps 0 i (by omega), getD_eq_getElem_of_lt ps 0 j hj]
    exact (List.pairwise_iff_getElem.mp h) i j (by omega) hj hlt

lemma prevIndexAux_not_mem (s : String) : ∀ (l : List String) (i : Nat) (acc : Int),
    s ∉ l → prevIndexAux s i acc l = acc := by
  intro l
  induction l with
  | nil => intro i acc _; rfl
  | cons a l ih =>
    intro i acc h
    have h1 : ¬(a = s) := fun hEq => h (hEq ▸ List.mem_cons_self a l)
    have h2 : s ∉ l := fun hm => h (List.mem_cons_of_mem a hm)
    rw [prevIndexAux, if_neg h1]
    exact ih (i + 1) acc h2

lemma prevIndexAux_mem (s : String) : ∀ (l : List String) (i : Nat) (acc : Int),
    s ∈ l → ∃ p : Nat, p < l.length ∧ prevIndexAux s i acc l = ((i + p : Nat) : Int) ∧
      l.getD p "" = s := by
  intro l
  induction l with
  | nil => intro i acc h; simp at h
  | cons a l ih =>
    intro i acc hmem
    by_cases hs : s ∈ l
    · obtain ⟨p, hp, heq, hget⟩ := ih (i + 1) (if a = s then (i : Int) else acc) hs
      refine ⟨p + 1, by simp; omega, ?_, by simpa using hget⟩
      rw [prevIndexAux, heq]
      congr 1
      omega
    · have ha : a = s := by
        rcases List.mem_cons.mp hmem with h | h
        · exact h.symm
        · exact absurd h hs
      refine ⟨0, by simp, ?_, by simpa using ha⟩
      rw [prevIndexAux, if_pos ha, prevIndexAux_not_mem s l (i + 1) (i : Int) hs]
      norm_num

lemma retry_dispatch (cs : ClusterState) (k : Int) (prev : String) (rU rD : Nat)
    (hk : k ≠ 0) (hn : 2 ≤ numservices cs) :
    (SelectService cs k prev rU rD).1 =
      getIndexedService cs (roundrobin (numservices cs) (prevIndex cs.servicelist prev)) := by
  rw [SelectService, if_neg (by omega), if_neg (by omega), if_neg hk]

lemma getIndexedService_ok (cs : ClusterState) (q : Nat) (hq : q < numservices cs) :
    getIndexedService cs (q : Int) = Except.ok (cs.servicelist.getD q "") := by
  rw [getIndexedService, if_neg (by omega)]
  simp

/-! ## Claim theorems -/

/-- C3: for every non-empty endpoint list, the maximum effective error equals 1
iff every endpoint's error counter is 0; consequently a first-attempt selection
(attempt index 0, count ≥ 2) takes the uniform-random branch exactly when no
endpoint has a recorded failure. -/
theorem maxEffErr_one_iff_no_failures (cs : ClusterState) (hne : cs.servicelist ≠ []) :
    (maxEffErr cs = 1 ↔ ∀ svc ∈ cs.servicelist, cs.errormap svc = 0) ∧
    (∀ (prev : String) (rU rD : Nat), 2 ≤ numservices cs →
      ((∀ svc ∈ cs.servicelist, cs.errormap svc = 0) →
        (SelectService cs 0 prev rU rD).1 = uniformSelect cs rU) ∧
      ((∃ svc ∈ cs.servicelist, cs.errormap svc ≠ 0) →
        (SelectService cs 0 prev rU rD).1 = weightedSelect cs rU rD)) := by
  have hiff := maxEffErr_eq_one_iff cs hne
  refine ⟨hiff, ?_⟩
  intro prev rU rD hn
  constructor
  · intro hall
    rw [SelectService, if_neg (by omega), if_neg (by omega), if_pos rfl,
      if_pos (hiff.mpr hall)]
  · intro hsome
    have h2 := two_le_maxEffErr cs hsome
    rw [SelectService, if_neg (by omega), if_neg (by omega), if_pos rfl, if_neg (by omega)]

theorem maxEffErr_one_iff_no_failures_app : maxEffErr csEx = 1 :=
  (maxEffErr_one_iff_no_failures csEx (by decide)).1.mpr (by decide)

/-- C4: retry selection is deterministic round-robin: for attempt index > 0 it
returns the endpoint at `(previousPosition + 1) mod count`; in particular for
endpoints `[s0, s1, s2]` and any error-counter state, retry after `s0` gives
`s1`, after `s1` gives `s2`, and after `s2` wraps to `s0`. -/
theorem retry_selection_round_robin_cyclic :
    (∀ (cs : ClusterState) (k : Int) (prev : String) (rU rD : Nat),
      0 < k → 2 ≤ numservices cs →
      (SelectService cs k prev rU rD).1 =
        getIndexedService cs (roundrobin (numservices cs) (prevIndex cs.servicelist prev))) ∧
    (∀ (em : String → Nat) (rU rD : Nat),
      (SelectService ⟨["s0", "s1", "s2"], em⟩ 1 "s0" rU rD).1 = Except.ok "s1" ∧
      (SelectService ⟨["s0", "s1", "s2"], em⟩ 1 "s1" rU rD).1 = Except.ok "s2" ∧
      (SelectService ⟨["s0", "s1", "s2"], em⟩ 1 "s2" rU rD).1 = Except.ok "s0") := by
  constructor
  · intro cs k prev rU rD hk hn
    exact retry_dispatch cs k prev rU rD (by omega) hn
  · intro em rU rD
    refine ⟨rfl, rfl, ?_⟩
    with_unfolding_all rfl

theorem retry_selection_round_robin_cyclic_app :
    (SelectService csEx 1 "s1" 0 0).1 =
      getIndexedService csEx (roundrobin (numservices csEx) (prevIndex csEx.servicelist "s1")) :=
  retry_selection_round_robin_cyclic.1 csEx 1 "s1" 0 0 (by decide) (by decide)

/-- C6: on a cluster state with zero endpoints, SelectService fails with the
no-endpoints error for every attempt index and previous endpoint, returning no
endpoint identifier. -/
theorem selectService_empty_noEndpoints (cs : ClusterState) (k : Int) (prev : String)
    (rU rD : Nat) (h : numservices cs = 0) :
    (SelectService cs k prev rU rD).1 = Except.error "harmonic: servicelist is empty" := by
  rw [SelectService, if_pos h]

theorem selectService_empty_noEndpoints_app :
    (SelectService csEmpty 5 "x" 0 0).1 = Except.error "harmonic: servicelist is empty" :=
  selectService_empty_noEndpoints csEmpty 5 "x" 0 0 rfl

/-- C7: on a cluster state with exactly one endpoint, SelectService returns the
endpoint at index 0 and no error, for every attempt index, previous endpoint
and error-counter state. -/
theorem selectService_single_sole_endpoint (cs : ClusterState) (k : Int) (prev : String)
    (rU rD : Nat) (h : numservices cs = 1) :
    (SelectService cs k prev rU rD).1 = Except.ok (cs.servicelist.getD 0 "") := by
  rw [SelectService, if_neg (by omega), if_pos h]
  exact getIndexedService_ok cs 0 (by omega)

theorem selectService_single_sole_endpoint_app :
    (SelectService csOne 7 "nope" 0 0).1 = Except.ok "only" :=
  selectService_single_sole_endpoint csOne 7 "nope" 0 0 rfl

/-- C8: getIndexedService fails with the index-out-of-range error iff the index
is outside `[0, count)`, and for every in-range index returns the endpoint at
that position and no error. -/
theorem getIndexedService_bounds_spec (cs : ClusterState) (index : Int) :
    (getIndexedService cs index = Except.error "harmonic: service index out of bounds" ↔
      index < 0 ∨ (numservices cs : Int) ≤ index) ∧
    (0 ≤ index → index < (numservices cs : Int) →
      getIndexedService cs index = Except.ok (cs.servicelist.getD index.toNat "")) := by
  constructor
  · constructor
    · intro h
      by_contra hc
      rw [getIndexedService, if_neg hc] at h
      exact Except.noConfusion h
    · intro h
      rw [getIndexedService, if_pos h]
  · intro h1 h2
    rw [getIndexedService, if_neg (by omega)]

theorem getIndexedService_bounds_spec_app : getIndexedService csEx 1 = Except.ok "s1" :=
  (getIndexedService_bounds_spec csEx 1).2 (by decide) (by decide)

/-- C9: every call to SelectService leaves the cluster state unchanged —
the embedding threads the state and every branch returns it untouched. -/
theorem selectService_state_unchanged (cs : ClusterState) (k : Int) (prev : String)
    (rU rD : Nat) : (SelectService cs k prev rU rD).2 = cs := by
  rw [SelectService]
  split
  · rfl
  · split
    · rfl
    · split
      · rfl
      · rfl

/-- C10: for every attempt index different from 0 — including negative values —
SelectService on a state with count ≥ 2 takes the deterministic round-robin
retry path, never the weighted/uniform first-attempt path. -/
theorem nonzero_retryindex_takes_retry_path (cs : ClusterState) (k : Int) (prev : String)
    (rU rD : Nat) (hk : k ≠ 0) (hn : 2 ≤ numservices cs) :
    (SelectService cs k prev rU rD).1 =
      getIndexedService cs (roundrobin (numservices cs) (prevIndex cs.servicelist prev)) :=
  retry_dispatch cs k prev rU rD hk hn

theorem nonzero_retryindex_takes_retry_path_app :
    (SelectService csEx (-3) "s0" 0 0).1 =
      getIndexedService csEx (roundrobin (numservices csEx) (prevIndex csEx.servicelist "s0")) :=
  nonzero_retryindex_takes_retry_path csEx (-3) "s0" 0 0 (by decide) (by decide)

/-- C2: over a monotonically non-decreasing non-empty prefixes array, for every
draw `r` with `1 ≤ r ≤ prefixes[n-1]`, `findCeilIn r prefixes 0 (n-1)` returns
the smallest index whose prefix value is at least `r`; and it returns -1
exactly when `r` exceeds the last prefix entry. -/
theorem findCeilIn_ceiling_search_spec (ps : List Nat) (hne : ps ≠ [])
    (hmono : ps.Pairwise (· ≤ ·)) :
    (∀ r : Nat, 1 ≤ r → r ≤ ps.getD (ps.length - 1) 0 →
      ∃ i : Nat, findCeilIn r ps 0 (ps.length - 1) = (i : Int) ∧ i < ps.length ∧
        r ≤ ps.getD i 0 ∧ ∀ j, j < i → ps.getD j 0 < r) ∧
    (∀ r : Nat, findCeilIn r ps 0 (ps.length - 1) = -1 ↔ ps.getD (ps.length - 1) 0 < r) := by
  have hlen : 0 < ps.length := List.length_pos.mpr hne
  have mono := pairwise_le_getD ps hmono
  constructor
  · intro r _ h2
    exact findCeilIn_found ps r mono hlen h2
  · intro r
    constructor
    · intro hm1
      by_contra hlt
      push_neg at hlt
      obtain ⟨i, hie, _⟩ := findCeilIn_found ps r mono hlen hlt
      rw [hm1] at hie
      omega
    · exact findCeilIn_none ps r mono hlen

theorem findCeilIn_ceiling_search_spec_app : findCeilIn 4 [1, 3] 0 1 = -1 :=
  ((findCeilIn_ceiling_search_spec [1, 3] (by decide) (by decide)).2 4).mpr (by decide)

/-- C5 counterexample: with duplicate identifiers the retry path can return
exactly the previous endpoint: on `["a", "b", "a"]` the scan finds the last
occurrence of `"a"` (index 2), and `(2 + 1) mod 3 = 0` holds `"a"` again. -/
theorem retry_repeats_prev_on_duplicates :
    1 < numservices csDup ∧ (SelectService csDup 1 "a" 0 0).1 = Except.ok "a" :=
  ⟨by decide, rfl⟩

/-- C5 amended: for every cluster state whose endpoint identifiers are
distinct, count ≥ 2, every retry selection returns an endpoint identifier
different from the supplied previous endpoint (with duplicate identifiers the
guarantee fails, see the counterexample). -/
theorem retry_never_repeats_prev_of_nodup (cs : ClusterState) (k : Int) (prev : String)
    (rU rD : Nat) (hnd : cs.servicelist.Nodup) (hn : 2 ≤ numservices cs) (hk : 0 < k) :
    ∃ svc, (SelectService cs k prev rU rD).1 = Except.ok svc ∧ svc ≠ prev := by
  rw [retry_dispatch cs k prev rU rD (by omega) hn]
  have hlen : 2 ≤ cs.servicelist.length := hn
  by_cases hmem : prev ∈ cs.servicelist
  · obtain ⟨p, hp, heq, hget⟩ := prevIndexAux_mem prev cs.servicelist 0 (-1) hmem
    have hpi : prevIndex cs.servicelist prev = (p : Int) := by
      rw [prevIndex, heq]
      norm_num
    have hnpos : 0 < numservices cs := by omega
    have hrr : roundrobin (numservices cs) (prevIndex cs.servicelist prev)
        = (((p + 1) % numservices cs : Nat) : Int) := by
      rw [roundrobin, hpi, Int.natCast_mod]
      norm_cast
    have hqn : (p + 1) % numservices cs < numservices cs := Nat.mod_lt _ hnpos
    rw [hrr, getIndexedService_ok cs ((p + 1) % numservices cs) hqn]
    refine ⟨cs.servicelist.getD ((p + 1) % numservices cs) "", rfl, ?_⟩
    intro hcontra
    have hplen : p < cs.servicelist.length := hp
    have hqlen : (p + 1) % numservices cs < cs.servicelist.length := hqn
    have hqp : (p + 1) % numservices cs ≠ p := by
      rcases Nat.lt_or_ge (p + 1) (numservices cs) with h | h
      · rw [Nat.mod_eq_of_lt h]
        omega
      · have hp1 : p + 1 = numservices cs := by
          have : p < numservices cs := hp
          omega
        rw [hp1, Nat.mod_self]
        have : p + 1 = numservices cs := hp1
        omega
    apply hqp
    have h1 : cs.servicelist[(p + 1) % numservices cs] = cs.servicelist[p] := by
      rw [← getD_eq_getElem_of_lt cs.servicelist "" _ hqlen,
        ← getD_eq_getElem_of_lt cs.servicelist "" p hplen, hcontra, hget]
    exact (List.Nodup.getElem_inj_iff hnd).mp h1
  · have hpi : prevIndex cs.servicelist prev = -1 :=
      prevIndexAux_not_mem prev cs.servicelist 0 (-1) hmem
    have hrr : roundrobin (numservices cs) (prevIndex cs.servicelist prev) = ((0 : Nat) : Int) := by
      rw [roundrobin, hpi]
      simp
    rw [hrr, getIndexedService_ok cs 0 (by omega)]
    refine ⟨cs.servicelist.getD 0 "", rfl, ?_⟩
    intro hcontra
    apply hmem
    rw [← hcontra, getD_eq_getElem_of_lt cs.servicelist "" 0 (by omega)]
    exact List.getElem_mem _

theorem retry_never_repeats_prev_of_nodup_app :
    ∃ svc, (SelectService csEx 1 "s0" 0 0).1 = Except.ok svc ∧ svc ≠ "s0" :=
  retry_never_repeats_prev_of_nodup csEx 1 "s0" 0 0 (by decide) (by decide) (by decide)

/-- C1: in the weighted branch (count ≥ 2, some error counter nonzero, so
`maxEffErr ≠ 1`), for every index `i < count` the number of draws `r` in the
closed range `[1, totalWeight]` that the prefix-sum ceiling search maps to `i`
equals `weights[i] = ceil(maxEffectiveError / (errorCount_i + 1))`. -/
theorem weighted_draw_mass_eq_weight (cs : ClusterState) (hn : 2 ≤ numservices cs)
    (herr : ∃ svc ∈ cs.servicelist, cs.errormap svc ≠ 0) (i : Nat) (hi : i < numservices cs) :
    maxEffErr cs ≠ 1 ∧
    ((Finset.Icc 1 ((prefixesCS cs).getD (numservices cs - 1) 0)).filter
      (fun r => findCeilIn r (prefixesCS cs) 0 (numservices cs - 1) = (i : Int))).card
      = weightFor (maxEffErr cs) (cs.errormap (cs.servicelist.getD i "")) := by
  have h2 := two_le_maxEffErr cs herr
  refine ⟨by omega, ?_⟩
  have hWlen : (weightsCS cs).length = numservices cs := by
    rw [weightsCS, List.length_map]
    rfl
  have hPlen : (prefixesCS cs).length = numservices cs := by
    rw [prefixesCS, prefixSums_length]
    exact hWlen
  have hiW : i < (weightsCS cs).length := by omega
  have monoP : ∀ a b, a ≤ b → b < (prefixesCS cs).length →
      (prefixesCS cs).getD a 0 ≤ (prefixesCS cs).getD b 0 := by
    intro a b hab hb
    exact prefixSums_getD_mono (weightsCS cs) 0 a b hab (by omega)
  have hPget : ∀ j, j < numservices cs →
      (prefixesCS cs).getD j 0 = ((weightsCS cs).take (j + 1)).sum := by
    intro j hj
    have h := prefixSums_getD (weightsCS cs) 0 j (by omega)
    simpa [prefixesCS] using h
  have hlenpos : 0 < (prefixesCS cs).length := by omega
  have htot : (prefixesCS cs).getD (numservices cs - 1) 0
      = (prefixesCS cs).getD ((prefixesCS cs).length - 1) 0 := by rw [hPlen]
  have hchar : ∀ r : Nat,
      ((1 ≤ r ∧ r ≤ (prefixesCS cs).getD (numservices cs - 1) 0) ∧
        findCeilIn r (prefixesCS cs) 0 (numservices cs - 1) = (i : Int)) ↔
      (((weightsCS cs).take i).sum < r ∧ r ≤ ((weightsCS cs).take (i + 1)).sum) := by
    intro r
    constructor
    · rintro ⟨⟨hr1, hr2⟩, hre⟩
      obtain ⟨i0, he0, hlt0, hle0, hmin0⟩ := findCeilIn_found (prefixesCS cs) r monoP hlenpos
        (by rw [← htot]; exact hr2)
      rw [show numservices cs - 1 = (prefixesCS cs).length - 1 by omega] at hre
      have hii : i0 = i := by
        have hcast : (i0 : Int) = (i : Int) := by rw [← he0, hre]
        exact_mod_cast hcast
      rw [hii] at hle0 hmin0
      constructor
      · rcases Nat.eq_zero_or_pos i with h0 | hpos
        · subst h0
          simp only [List.take_zero, List.sum_nil]
          omega
        · have hmin := hmin0 (i - 1) (by omega)
          rw [hPget (i - 1) (by omega)] at hmin
          rw [Nat.sub_add_cancel hpos] at hmin
          exact hmin
      · rw [← hPget i hi]
        exact hle0
    · rintro ⟨hlo, hhi⟩
      have hr1 : 1 ≤ r := by omega
      have hhiP : r ≤ (prefixesCS cs).getD i 0 := by
        rw [hPget i hi]
        exact hhi
      have hr2 : r ≤ (prefixesCS cs).getD (numservices cs - 1) 0 :=
        le_trans hhiP (monoP i (numservices cs - 1) (by omega) (by omega))
      refine ⟨⟨hr1, hr2⟩, ?_⟩
      obtain ⟨i0, he0, hlt0, hle0, hmin0⟩ := findCeilIn_found (prefixesCS cs) r monoP hlenpos
        (by rw [← htot]; exact hr2)
      have hii : i0 = i := by
        by_contra hne
        rcases Nat.lt_or_ge i0 i with hcase | hcase
        · have hle : (prefixesCS cs).getD i0 0 ≤ (prefixesCS cs).getD (i - 1) 0 :=
            monoP i0 (i - 1) (by omega) (by omega)
          rw [hPget (i - 1) (by omega), Nat.sub_add_cancel (by omega)] at hle
          omega
        · have hmin := hmin0 i (by omega)
          omega
      rw [show numservices cs - 1 = (prefixesCS cs).length - 1 by omega, he0, hii]
  have hset : (Finset.Icc 1 ((prefixesCS cs).getD (numservices cs - 1) 0)).filter
      (fun r => findCeilIn r (prefixesCS cs) 0 (numservices cs - 1) = (i : Int))
      = Finset.Ioc (((weightsCS cs).take i).sum) (((weightsCS cs).take (i + 1)).sum) := by
    ext r
    simp only [Finset.mem_filter, Finset.mem_Icc, Finset.mem_Ioc]
    exact hchar r
  rw [hset, Nat.card_Ioc, sum_take_succ_eq (weightsCS cs) i hiW]
  have hWi : (weightsCS cs).getD i 0
      = weightFor (maxEffErr cs) (cs.errormap (cs.servicelist.getD i "")) := by
    rw [weightsCS]
    exact getD_map_nat (fun svc => weightFor (maxEffErr cs) (cs.errormap svc)) cs.servicelist i hi
  omega

theorem weighted_draw_mass_eq_weight_app :
    maxEffErr csW ≠ 1 ∧
    ((Finset.Icc 1 ((prefixesCS csW).getD (numservices csW - 1) 0)).filter
      (fun r => findCeilIn r (prefixesCS csW) 0 (numservices csW - 1) = (1 : Int))).card
      = weightFor (maxEffErr csW) (csW.errormap (csW.servicelist.getD 1 "")) :=
  weighted_draw_mass_eq_weight csW (by decide) (by decide) 1 (by decide)

